import Mathlib

/-!
Shallow embedding of `MiningPoolMatcher.py`: the hex decoder (`convert_script`),
the pool attributor (`match_pool_in_columns` and the per-row fallback loop of
`process_data`), and the sanitizer (`sanitize_string`), together with theorems
settling the specification's claims about them.
-/

namespace MiningPool

/-- Result record of `convert_script`: the three decoded views
(dict keys "UTF-8", "ASCII", "Hex" in the source). -/
structure DecodedScript where
  utf8View : String
  asciiView : String
  hexView : String
deriving DecidableEq

/-- A hexadecimal digit character, as accepted by `binascii.unhexlify`. -/
def isHexDigit (c : Char) : Bool :=
  decide ((48 ≤ c.toNat ∧ c.toNat ≤ 57) ∨ (97 ≤ c.toNat ∧ c.toNat ≤ 102) ∨
    (65 ≤ c.toNat ∧ c.toNat ≤ 70))

/-- Numeric value of a hex digit character (standard hex digit value,
as computed by `binascii.unhexlify` per character). -/
def hexVal (c : Char) : Nat :=
  if c.toNat ≤ 57 then c.toNat - 48
  else if 97 ≤ c.toNat then c.toNat - 87
  else c.toNat - 55

/-- Lowercase hex digit character for a value below 16, as emitted by
`binascii.hexlify`. -/
def hexChar (n : Nat) : Char :=
  if n < 10 then Char.ofNat (48 + n) else Char.ofNat (87 + n)

/-- Pairwise hex-to-byte conversion: the per-character scan of
`binascii.unhexlify`. Returns `none` on a non-hex character or a dangling
final character. -/
def hexToBytes : List Char → Option (List Nat)
  | [] => some []
  | [_] => none
  | c1 :: c2 :: rest =>
    if isHexDigit c1 && isHexDigit c2 then
      (hexToBytes rest).map (fun bs => (hexVal c1 * 16 + hexVal c2) :: bs)
    else none

/-- `binascii.unhexlify`: odd-length input raises "Odd-length string",
a non-hex character raises "Non-hexadecimal digit found"; embedded as
`Except` with the exception message. -/
def unhexlify (s : String) : Except String (List Nat) :=
  if s.data.length % 2 = 1 then Except.error "Odd-length string"
  else
    match hexToBytes s.data with
    | some bs => Except.ok bs
    | none => Except.error "Non-hexadecimal digit found"

/-- `binascii.hexlify(bytes).decode('utf-8')`: lowercase hex re-encoding. -/
def hexlify (bs : List Nat) : List Char :=
  bs.flatMap (fun b => [hexChar (b / 16), hexChar (b % 16)])

/-- The ASCII view: `''.join([chr(b) if 32 <= b < 127 else '.' for b in decoded_bytes])`. -/
def asciiOf (bs : List Nat) : List Char :=
  bs.map (fun b => if 32 ≤ b ∧ b < 127 then Char.ofNat b else '.')

/-- Is `b` a UTF-8 continuation byte in the closed range `[lo, hi]`? -/
def isCont (lo hi b : Nat) : Bool := decide (lo ≤ b ∧ b ≤ hi)

/-- One step of CPython's UTF-8 decoder at head byte `b` with remaining
bytes `rest`: the decoded scalar value when a well-formed sequence starts
here (`none` for an invalid or truncated sequence, which the `ignore` error
handler discards), together with how many bytes of `rest` belong to the
sequence and are consumed beyond `b`. -/
def utf8Step (b : Nat) (rest : List Nat) : Option Nat × Nat :=
  if b < 0x80 then (some b, 0)
  else if 0xC2 ≤ b ∧ b ≤ 0xDF then
    match rest with
    | [] => (none, 0)
    | b1 :: _ =>
      if isCont 0x80 0xBF b1 then (some ((b - 0xC0) * 0x40 + (b1 - 0x80)), 1)
      else (none, 0)
  else if 0xE0 ≤ b ∧ b ≤ 0xEF then
    match rest with
    | [] => (none, 0)
    | b1 :: rest1 =>
      if isCont (if b = 0xE0 then 0xA0 else 0x80) (if b = 0xED then 0x9F else 0xBF) b1 then
        match rest1 with
        | [] => (none, 1)
        | b2 :: _ =>
          if isCont 0x80 0xBF b2 then
            (some ((b - 0xE0) * 0x1000 + (b1 - 0x80) * 0x40 + (b2 - 0x80)), 2)
          else (none, 1)
      else (none, 0)
  else if 0xF0 ≤ b ∧ b ≤ 0xF4 then
    match rest with
    | [] => (none, 0)
    | b1 :: rest1 =>
      if isCont (if b = 0xF0 then 0x90 else 0x80) (if b = 0xF4 then 0x8F else 0xBF) b1 then
        match rest1 with
        | [] => (none, 1)
        | b2 :: rest2 =>
          if isCont 0x80 0xBF b2 then
            match rest2 with
            | [] => (none, 2)
            | b3 :: _ =>
              if isCont 0x80 0xBF b3 then
                (some ((b - 0xF0) * 0x40000 + (b1 - 0x80) * 0x1000 +
                  (b2 - 0x80) * 0x40 + (b3 - 0x80)), 3)
              else (none, 2)
          else (none, 1)
      else (none, 0)
  else (none, 0)

/-- The decoder loop: repeatedly apply `utf8Step`, dropping the consumed
bytes. The first argument bounds the number of iterations; every iteration
consumes at least one byte, so starting it at the byte count makes the
zero-bound case unreachable. -/
def utf8DecodeLoop : Nat → List Nat → List Char
  | _, [] => []
  | 0, _ :: _ => []
  | bound + 1, b :: rest =>
    match utf8Step b rest with
    | (some v, k) => Char.ofNat v :: utf8DecodeLoop bound (rest.drop k)
    | (none, k) => utf8DecodeLoop bound (rest.drop k)

/-- `bytes.decode('utf-8', errors='ignore')`: best-effort UTF-8 decoding,
skipping the bytes of every invalid or truncated sequence (CPython's
`ignore` error handler). -/
def utf8DecodeIgnore (bs : List Nat) : List Char := utf8DecodeLoop bs.length bs

/-- `convert_script`: decode a hex-encoded input script into the three views,
returning the error-sentinel record when `unhexlify` raises. -/
def convert_script (input_script : String) : DecodedScript :=
  match unhexlify input_script with
  | Except.ok decoded_bytes =>
    { utf8View := String.mk (utf8DecodeIgnore decoded_bytes)
      asciiView := String.mk (asciiOf decoded_bytes)
      hexView := String.mk (hexlify decoded_bytes) }
  | Except.error e =>
    { utf8View := "Error: " ++ e
      asciiView := "Error"
      hexView := "Error" }

/-- Python's `str.lower()` restricted to the basic latin letters that occur
in the data this program handles. -/
def pyLower (s : String) : String := String.mk (s.data.map Char.toLower)

/-- Python's substring containment `needle in hay`, scanning left to right. -/
def substrB (needle : List Char) : List Char → Bool
  | [] => needle.isEmpty
  | c :: t => needle.isPrefixOf (c :: t) || substrB needle t

/-- Python's `sub in s` on strings. -/
def pyIn (sub s : String) : Bool := substrB sub.data s.data

/-- One pool tag record from the JSON configuration: `{name, link}`.
The opaque configuration key is not consulted by the matcher. -/
structure PoolTag where
  name : String
  link : String
deriving DecidableEq

/-- The matcher's per-tag test: `pool['name'].lower() in decoded_str.lower()`. -/
def tagMatches (tag : PoolTag) (decoded_str : String) : Bool :=
  pyIn (pyLower tag.name) (pyLower decoded_str)

/-- The `for key, pool in pool_data.items()` loop of `match_pool_in_columns`:
first tag (in declared iteration order) whose name matches wins; otherwise
the empty-string pair. -/
def match_pool_loop (decoded_str : String) : List PoolTag → String × String
  | [] => ("", "")
  | tag :: rest =>
    if tagMatches tag decoded_str then (tag.name, tag.link)
    else match_pool_loop decoded_str rest

/-- A dynamically typed value reaching `match_pool_in_columns` or
`sanitize_string`: a string, Python's `None`, or some other non-string
value (represented by an integer, whose `str()` is its decimal rendering). -/
inductive PyValue where
  | vStr (s : String)
  | vNone
  | vInt (n : Int)
deriving DecidableEq

/-- The coercion at the top of `match_pool_in_columns`:
`str(decoded_str) if decoded_str is not None else ""` for non-strings. -/
def coerceToStr : PyValue → String
  | PyValue.vStr s => s
  | PyValue.vNone => ""
  | PyValue.vInt n => toString n

/-- `match_pool_in_columns(decoded_str, pool_data)`. -/
def match_pool_in_columns (decoded_str : PyValue) (pool_data : List PoolTag) :
    String × String :=
  match_pool_loop (coerceToStr decoded_str) pool_data

/-- The per-row attribution step of `process_data` (lines 163-174): match on
the UTF-8 view; if the resulting pool name is falsy (empty), retry on the
ASCII view. -/
def process_row_match (utf8_decoded ascii_decoded : String)
    (pool_data : List PoolTag) : String × String :=
  if (match_pool_in_columns (PyValue.vStr utf8_decoded) pool_data).1 = "" then
    match_pool_in_columns (PyValue.vStr ascii_decoded) pool_data
  else match_pool_in_columns (PyValue.vStr utf8_decoded) pool_data

/-- Printable-ASCII test of the sanitizer's character class `[\x20-\x7E]`. -/
def printableAscii (c : Char) : Bool := decide (0x20 ≤ c.toNat ∧ c.toNat ≤ 0x7E)

/-- The character-by-character effect of `re.sub(r'[^\x20-\x7E]', '', value)`:
every character outside the class is deleted, the rest kept in order. -/
def reSubStrip : List Char → List Char
  | [] => []
  | c :: t => if printableAscii c then c :: reSubStrip t else reSubStrip t

/-- `sanitize_string(value)`: strings are stripped of non-printable-ASCII
characters, non-strings pass through unchanged. -/
def sanitize_string : PyValue → PyValue
  | PyValue.vStr s => PyValue.vStr (String.mk (reSubStrip s.data))
  | v => v

/-! ### Lemmas about the substring scan and the matcher loop -/

theorem isPrefixOf_exists (n h : List Char) :
    n.isPrefixOf h = true ↔ ∃ r, n ++ r = h := by
  simp [List.IsPrefix]

theorem substrB_exists (n : List Char) :
    ∀ h : List Char, substrB n h = true ↔ ∃ l r, h = l ++ n ++ r := by
  intro h
  induction h with
  | nil =>
    simp only [substrB, List.isEmpty_iff]
    constructor
    · rintro rfl
      exact ⟨[], [], rfl⟩
    · rintro ⟨l, r, hlr⟩
      rcases List.append_eq_nil.mp hlr.symm with ⟨h1, -⟩
      exact (List.append_eq_nil.mp h1).2
  | cons c t ih =>
    simp only [substrB, Bool.or_eq_true, isPrefixOf_exists, ih]
    constructor
    · rintro (⟨r, hr⟩ | ⟨l, r, rfl⟩)
      · exact ⟨[], r, by simp [hr.symm]⟩
      · exact ⟨c :: l, r, rfl⟩
    · rintro ⟨l, r, hlr⟩
      cases l with
      | nil => exact Or.inl ⟨r, by simpa using hlr.symm⟩
      | cons c2 l2 =>
        simp only [List.cons_append] at hlr
        injection hlr with h1 h2
        exact Or.inr ⟨l2, r, h2⟩

theorem tagMatches_iff (tag : PoolTag) (s : String) :
    tagMatches tag s = true ↔
      ∃ l r, s.data.map Char.toLower = l ++ tag.name.data.map Char.toLower ++ r := by
  unfold tagMatches pyIn pyLower
  exact substrB_exists _ _

theorem string_data_ne_nil (s : String) (h : s ≠ "") : s.data ≠ [] := by
  intro hd
  apply h
  cases s with
  | mk l =>
    cases hd
    rfl

theorem tagMatches_empty_text (t : PoolTag) (hne : t.name ≠ "") :
    tagMatches t "" = false := by
  have hd := string_data_ne_nil t.name hne
  unfold tagMatches pyIn pyLower
  cases hl : t.name.data with
  | nil => exact absurd hl hd
  | cons c l => rfl

theorem match_pool_loop_no_match (s : String) (tags : List PoolTag)
    (h : ∀ t ∈ tags, tagMatches t s = false) :
    match_pool_loop s tags = ("", "") := by
  induction tags with
  | nil => rfl
  | cons tag rest ih =>
    simp only [match_pool_loop]
    rw [if_neg (by simp [h tag (List.mem_cons_self tag rest)])]
    exact ih fun t ht => h t (List.mem_cons_of_mem _ ht)

theorem match_pool_loop_first (s : String) (tags : List PoolTag)
    (hex : ∃ t ∈ tags, tagMatches t s = true) :
    ∃ pre t post, tags = pre ++ t :: post ∧ tagMatches t s = true ∧
      (∀ u ∈ pre, tagMatches u s = false) ∧
      match_pool_loop s tags = (t.name, t.link) := by
  induction tags with
  | nil =>
    rcases hex with ⟨t, ht, -⟩
    exact absurd ht (List.not_mem_nil t)
  | cons tag rest ih =>
    cases hm : tagMatches tag s with
    | true =>
      refine ⟨[], tag, rest, rfl, hm, by simp, ?_⟩
      simp only [match_pool_loop]
      rw [if_pos hm]
    | false =>
      have hex' : ∃ t ∈ rest, tagMatches t s = true := by
        rcases hex with ⟨t, ht, htm⟩
        rcases List.mem_cons.mp ht with rfl | hmem
        · rw [hm] at htm
          cases htm
        · exact ⟨t, hmem, htm⟩
      obtain ⟨pre, t, post, hsplit, htm, hpre, hloop⟩ := ih hex'
      refine ⟨tag :: pre, t, post, by simp [hsplit], htm, ?_, ?_⟩
      · intro u hu
        rcases List.mem_cons.mp hu with rfl | hmem
        · exact hm
        · exact hpre u hmem
      · simp only [match_pool_loop]
        rw [if_neg (by simp [hm]), hloop]

theorem match_pool_loop_fst_ne (s : String) (tags : List PoolTag)
    (hne : ∀ t ∈ tags, t.name ≠ "") (hex : ∃ t ∈ tags, tagMatches t s = true) :
    (match_pool_loop s tags).1 ≠ "" := by
  obtain ⟨pre, t, post, hsplit, htm, hpre, hloop⟩ := match_pool_loop_first s tags hex
  rw [hloop]
  exact hne t (hsplit ▸ List.mem_append_right _ (List.mem_cons_self _ _))

theorem no_match_of_not_exists (s : String) (tags : List PoolTag)
    (hex : ¬ ∃ t ∈ tags, tagMatches t s = true) :
    ∀ t ∈ tags, tagMatches t s = false := by
  intro t ht
  cases hm : tagMatches t s with
  | false => rfl
  | true => exact absurd ⟨t, ht, hm⟩ hex

/-! ### Claims about the attributor -/

/-- C1 counterexample: the claim "asciiView is searched if and only if no tag
matched in utf8View, and the result comes from asciiView exactly when some tag
matches asciiView and none matches utf8View" fails as stated. With tags
`[{name "b", link "L2"}, {name "", link "L1"}]`, utf8View `"a"` and asciiView
`"b"`: the empty-named tag matches utf8View (Python's `"" in "a"` is true), yet
the row's attribution equals the asciiView search result and differs from the
utf8View search result, because the code retries whenever the matched pool
name is falsy, not whenever no tag matched. -/
theorem C1_counterexample :
    (∃ t ∈ [PoolTag.mk "b" "L2", PoolTag.mk "" "L1"], tagMatches t "a" = true) ∧
    process_row_match "a" "b" [PoolTag.mk "b" "L2", PoolTag.mk "" "L1"] =
      match_pool_in_columns (PyValue.vStr "b") [PoolTag.mk "b" "L2", PoolTag.mk "" "L1"] ∧
    process_row_match "a" "b" [PoolTag.mk "b" "L2", PoolTag.mk "" "L1"] ≠
      match_pool_in_columns (PyValue.vStr "a") [PoolTag.mk "b" "L2", PoolTag.mk "" "L1"] := by
  decide

/-- C1 (amended: every tag name is nonempty): the per-row attribution equals
the utf8View search result when some tag matches utf8View, equals the
asciiView search result when no tag matches utf8View, and is the empty pair
exactly when no tag matches either view. -/
theorem C1_fallback_order (u a : String) (tags : List PoolTag)
    (hne : ∀ t ∈ tags, t.name ≠ "") :
    ((∃ t ∈ tags, tagMatches t u = true) →
      process_row_match u a tags = match_pool_in_columns (PyValue.vStr u) tags) ∧
    ((∀ t ∈ tags, tagMatches t u = false) →
      process_row_match u a tags = match_pool_in_columns (PyValue.vStr a) tags) ∧
    (process_row_match u a tags = ("", "") ↔
      (∀ t ∈ tags, tagMatches t u = false) ∧ (∀ t ∈ tags, tagMatches t a = false)) := by
  refine ⟨?_, ?_, ?_, ?_⟩
  · intro hex
    simp only [process_row_match, match_pool_in_columns, coerceToStr]
    rw [if_neg (match_pool_loop_fst_ne u tags hne hex)]
  · intro hall
    simp only [process_row_match, match_pool_in_columns, coerceToStr]
    rw [match_pool_loop_no_match u tags hall, if_pos rfl]
  · intro hres
    by_cases hex : ∃ t ∈ tags, tagMatches t u = true
    · exfalso
      have h1 := match_pool_loop_fst_ne u tags hne hex
      simp only [process_row_match, match_pool_in_columns, coerceToStr] at hres
      rw [if_neg h1] at hres
      exact h1 (by rw [hres])
    · have hallu := no_match_of_not_exists u tags hex
      refine ⟨hallu, ?_⟩
      simp only [process_row_match, match_pool_in_columns, coerceToStr] at hres
      rw [match_pool_loop_no_match u tags hallu, if_pos rfl] at hres
      by_cases hexa : ∃ t ∈ tags, tagMatches t a = true
      · exact absurd (by rw [hres]) (match_pool_loop_fst_ne a tags hne hexa)
      · exact no_match_of_not_exists a tags hexa
  · rintro ⟨hu, ha⟩
    simp only [process_row_match, match_pool_in_columns, coerceToStr]
    rw [match_pool_loop_no_match u tags hu, if_pos rfl]
    exact match_pool_loop_no_match a tags ha

/-- C1 witness at a concrete input: one tag set with nonempty names, a
utf8View that matches nothing and an asciiView that matches. -/
theorem C1_witness :
    (∀ t ∈ [PoolTag.mk "Pool" "p"], t.name ≠ "") ∧
    ((∀ t ∈ [PoolTag.mk "Pool" "p"], tagMatches t "zz" = false) →
      process_row_match "zz" "pool here" [PoolTag.mk "Pool" "p"] =
        match_pool_in_columns (PyValue.vStr "pool here") [PoolTag.mk "Pool" "p"]) :=
  ⟨by decide, (C1_fallback_order "zz" "pool here" [PoolTag.mk "Pool" "p"] (by decide)).2.1⟩

/-- C2: when at least one tag matches, the attributor returns the name and
link of the first matching tag in the configuration's declared iteration
order, every earlier tag having failed to match. -/
theorem C2_first_declared_wins (text : String) (tags : List PoolTag)
    (h : ∃ t ∈ tags, tagMatches t text = true) :
    ∃ pre t post, tags = pre ++ t :: post ∧ tagMatches t text = true ∧
      (∀ u ∈ pre, tagMatches u text = false) ∧
      match_pool_in_columns (PyValue.vStr text) tags = (t.name, t.link) :=
  match_pool_loop_first text tags h

/-- C2 witness: with tags "Pool" then "SuperPool", both substrings of
"SuperPool block", the first-declared tag "Pool" wins over the longer match. -/
theorem C2_witness :
    (∃ t ∈ [PoolTag.mk "Pool" "p", PoolTag.mk "SuperPool" "sp"],
      tagMatches t "SuperPool block" = true) ∧
    (∃ pre t post,
      [PoolTag.mk "Pool" "p", PoolTag.mk "SuperPool" "sp"] = pre ++ t :: post ∧
      tagMatches t "SuperPool block" = true ∧
      (∀ u ∈ pre, tagMatches u "SuperPool block" = false) ∧
      match_pool_in_columns (PyValue.vStr "SuperPool block")
        [PoolTag.mk "Pool" "p", PoolTag.mk "SuperPool" "sp"] = (t.name, t.link)) ∧
    match_pool_in_columns (PyValue.vStr "SuperPool block")
      [PoolTag.mk "Pool" "p", PoolTag.mk "SuperPool" "sp"] = ("Pool", "p") :=
  ⟨by decide,
   C2_first_declared_wins "SuperPool block" [PoolTag.mk "Pool" "p", PoolTag.mk "SuperPool" "sp"]
     (by decide),
   by decide⟩

/-- C6: a tag matches exactly when its lower-cased name occurs as a contiguous
substring of the lower-cased candidate text; in particular tag "F2Pool"
matches "mined by f2pool today" and the attribution is ("F2Pool", link). -/
theorem C6_case_insensitive_substring :
    (∀ (tag : PoolTag) (s : String), tagMatches tag s = true ↔
      ∃ l r, s.data.map Char.toLower = l ++ tag.name.data.map Char.toLower ++ r) ∧
    match_pool_in_columns (PyValue.vStr "mined by f2pool today")
      [PoolTag.mk "F2Pool" "https://f2pool.com"] = ("F2Pool", "https://f2pool.com") :=
  ⟨tagMatches_iff, by decide⟩

/-- C7: when no tag name matches either decoded view, the per-row attribution
is the pair of empty strings, returned as a normal value. -/
theorem C7_no_match_empty_pair (u a : String) (tags : List PoolTag)
    (h : ∀ t ∈ tags, tagMatches t u = false ∧ tagMatches t a = false) :
    process_row_match u a tags = ("", "") := by
  simp only [process_row_match, match_pool_in_columns, coerceToStr]
  rw [match_pool_loop_no_match u tags fun t ht => (h t ht).1, if_pos rfl]
  exact match_pool_loop_no_match a tags fun t ht => (h t ht).2

/-- C7 witness: "random data xyz" against a tag set with no overlapping
substrings yields the empty pair. -/
theorem C7_witness :
    (∀ t ∈ [PoolTag.mk "Slush" "s", PoolTag.mk "AntPool" "ap"],
      tagMatches t "random data xyz" = false ∧ tagMatches t "random data xyz" = false) ∧
    process_row_match "random data xyz" "random data xyz"
      [PoolTag.mk "Slush" "s", PoolTag.mk "AntPool" "ap"] = ("", "") :=
  ⟨by decide,
   C7_no_match_empty_pair "random data xyz" "random data xyz"
     [PoolTag.mk "Slush" "s", PoolTag.mk "AntPool" "ap"] (by decide)⟩

/-- C9 counterexample: against a tag set containing an empty-named tag, the
absent (None) candidate is coerced to the empty string but does match that
tag (Python's `"" in ""` is true), so the result is not the empty pair. -/
theorem C9_counterexample :
    match_pool_in_columns PyValue.vNone [PoolTag.mk "" "L"] = ("", "L") ∧
    (("", "L") : String × String) ≠ ("", "") := by
  decide

/-- C9 (amended: every tag name is nonempty): a non-string candidate is
coerced to its textual representation before matching, an absent (None)
candidate is coerced to the empty string, and the empty-string candidate
matches no tag, yielding the empty pair. -/
theorem C9_coercion (tags : List PoolTag) (hne : ∀ t ∈ tags, t.name ≠ "") :
    (∀ n : Int, match_pool_in_columns (PyValue.vInt n) tags =
      match_pool_loop (toString n) tags) ∧
    match_pool_in_columns PyValue.vNone tags = match_pool_loop "" tags ∧
    match_pool_in_columns PyValue.vNone tags = ("", "") :=
  ⟨fun _ => rfl, rfl,
   match_pool_loop_no_match "" tags fun t ht => tagMatches_empty_text t (hne t ht)⟩

/-- C9 witness: against one nonempty-named tag, the None candidate yields the
empty pair. -/
theorem C9_witness :
    (∀ t ∈ [PoolTag.mk "F2Pool" "f"], t.name ≠ "") ∧
    match_pool_in_columns PyValue.vNone [PoolTag.mk "F2Pool" "f"] = ("", "") :=
  ⟨by decide, (C9_coercion [PoolTag.mk "F2Pool" "f"] (by decide)).2.2⟩

/-! ### The sanitizer -/

theorem reSubStrip_eq_filter (l : List Char) :
    reSubStrip l = l.filter printableAscii := by
  induction l with
  | nil => rfl
  | cons c t ih =>
    cases h : printableAscii c with
    | true => simp [reSubStrip, List.filter_cons, h, ih]
    | false => simp [reSubStrip, List.filter_cons, h, ih]

theorem reSubStrip_idem (l : List Char) :
    reSubStrip (reSubStrip l) = reSubStrip l := by
  induction l with
  | nil => rfl
  | cons c t ih =>
    cases h : printableAscii c with
    | true => simp [reSubStrip, h, ih]
    | false => simp [reSubStrip, h, ih]

/-- C8: sanitization keeps, in order, exactly the characters inside the
printable ASCII range 0x20-0x7E (so it removes exactly those outside it and
preserves the printable ones unchanged), passes non-string values through
unchanged, and is idempotent. -/
theorem C8_sanitize_filter :
    (∀ s : String, sanitize_string (PyValue.vStr s) =
      PyValue.vStr (String.mk (s.data.filter printableAscii))) ∧
    (∀ n : Int, sanitize_string (PyValue.vInt n) = PyValue.vInt n) ∧
    sanitize_string PyValue.vNone = PyValue.vNone ∧
    (∀ v : PyValue, sanitize_string (sanitize_string v) = sanitize_string v) := by
  refine ⟨?_, fun _ => rfl, rfl, ?_⟩
  · intro s
    simp only [sanitize_string, reSubStrip_eq_filter]
  · intro v
    cases v with
    | vStr s => exact congrArg (fun l => PyValue.vStr (String.mk l)) (reSubStrip_idem s.data)
    | vNone => rfl
    | vInt n => rfl

/-! ### Decoder lemmas -/

theorem hexVal_lt_16 (c : Char) (h : isHexDigit c = true) : hexVal c < 16 := by
  simp only [isHexDigit, decide_eq_true_eq] at h
  unfold hexVal
  rcases h with h | h | h
  · rw [if_pos (by omega)]; omega
  · rw [if_neg (by omega), if_pos (by omega)]; omega
  · rw [if_neg (by omega), if_neg (by omega)]; omega

theorem toLower_eq_ite (c : Char) :
    Char.toLower c =
      if c.toNat ≥ 65 ∧ c.toNat ≤ 90 then Char.ofNat (c.toNat + 32) else c := rfl

theorem hexChar_toLower (c : Char) (h : isHexDigit c = true) :
    hexChar (hexVal c) = Char.toLower c := by
  simp only [isHexDigit, decide_eq_true_eq] at h
  rw [toLower_eq_ite]
  rcases h with h | h | h
  · have hv : hexVal c = c.toNat - 48 := by unfold hexVal; rw [if_pos (by omega)]
    rw [hv]
    unfold hexChar
    rw [if_pos (by omega), if_neg (by omega)]
    have h48 : 48 + (c.toNat - 48) = c.toNat := by omega
    rw [h48, Char.ofNat_toNat]
  · have hv : hexVal c = c.toNat - 87 := by
      unfold hexVal; rw [if_neg (by omega), if_pos (by omega)]
    rw [hv]
    unfold hexChar
    rw [if_neg (by omega), if_neg (by omega)]
    have h87 : 87 + (c.toNat - 87) = c.toNat := by omega
    rw [h87, Char.ofNat_toNat]
  · have hv : hexVal c = c.toNat - 55 := by
      unfold hexVal; rw [if_neg (by omega), if_neg (by omega)]
    rw [hv]
    unfold hexChar
    rw [if_neg (by omega), if_pos (by omega)]
    congr 1
    omega

theorem pair_induction {motive : List Char → Prop} (h0 : motive [])
    (h1 : ∀ c, motive [c])
    (h2 : ∀ c1 c2 rest, motive rest → motive (c1 :: c2 :: rest)) :
    ∀ l, motive l := by
  have key : ∀ n l, List.length l ≤ n → motive l := by
    intro n
    induction n with
    | zero =>
      intro l hl
      cases l with
      | nil => exact h0
      | cons c t => simp at hl
    | succ n ih =>
      intro l hl
      match l with
      | [] => exact h0
      | [c] => exact h1 c
      | c1 :: c2 :: rest =>
        refine h2 c1 c2 rest (ih rest ?_)
        simp only [List.length_cons] at hl
        omega
  exact fun l => key l.length l le_rfl

theorem hexToBytes_even : ∀ l : List Char, ∀ bs : List Nat,
    hexToBytes l = some bs → l.length % 2 = 0 := by
  refine pair_induction ?_ ?_ ?_
  · intro bs _
    rfl
  · intro c bs h
    simp [hexToBytes] at h
  · intro c1 c2 rest ih bs h
    simp only [hexToBytes] at h
    by_cases hd : (isHexDigit c1 && isHexDigit c2) = true
    · rw [if_pos hd] at h
      rcases Option.map_eq_some'.mp h with ⟨bs', hrest, -⟩
      simp only [List.length_cons]
      have := ih bs' hrest
      omega
    · rw [if_neg hd] at h
      cases h

theorem hexToBytes_all_hex : ∀ l : List Char, ∀ bs : List Nat,
    hexToBytes l = some bs → ∀ c ∈ l, isHexDigit c = true := by
  refine pair_induction ?_ ?_ ?_
  · intro bs _ c hc
    cases hc
  · intro c bs h
    simp [hexToBytes] at h
  · intro c1 c2 rest ih bs h c hc
    simp only [hexToBytes] at h
    by_cases hd : (isHexDigit c1 && isHexDigit c2) = true
    · rw [if_pos hd] at h
      rcases Option.map_eq_some'.mp h with ⟨bs', hrest, -⟩
      rw [Bool.and_eq_true] at hd
      rcases hd with ⟨hd1, hd2⟩
      rcases List.mem_cons.mp hc with rfl | hc2
      · exact hd1
      rcases List.mem_cons.mp hc2 with rfl | hc3
      · exact hd2
      · exact ih bs' hrest c hc3
    · rw [if_neg hd] at h
      cases h

theorem hexToBytes_complete : ∀ l : List Char, l.length % 2 = 0 →
    (∀ c ∈ l, isHexDigit c = true) → ∃ bs, hexToBytes l = some bs := by
  refine pair_induction ?_ ?_ ?_
  · exact fun _ _ => ⟨[], rfl⟩
  · intro c hlen _
    simp [List.length] at hlen
  · intro c1 c2 rest ih hlen hall
    obtain ⟨bs, hbs⟩ := ih (by simp only [List.length_cons] at hlen; omega)
      (fun c hc => hall c (List.mem_cons_of_mem _ (List.mem_cons_of_mem _ hc)))
    refine ⟨(hexVal c1 * 16 + hexVal c2) :: bs, ?_⟩
    simp only [hexToBytes]
    rw [if_pos (by rw [hall c1 (List.mem_cons_self _ _),
      hall c2 (List.mem_cons_of_mem _ (List.mem_cons_self _ _))]; rfl), hbs]
    rfl

theorem hexToBytes_sound : ∀ l : List Char, ∀ bs : List Nat,
    hexToBytes l = some bs → hexlify bs = l.map Char.toLower := by
  refine pair_induction ?_ ?_ ?_
  · intro bs h
    obtain rfl : bs = [] := by simpa [hexToBytes] using h.symm
    rfl
  · intro c bs h
    simp [hexToBytes] at h
  · intro c1 c2 rest ih bs h
    simp only [hexToBytes] at h
    by_cases hd : (isHexDigit c1 && isHexDigit c2) = true
    · rw [if_pos hd] at h
      rcases Option.map_eq_some'.mp h with ⟨bs', hrest, rfl⟩
      rw [Bool.and_eq_true] at hd
      rcases hd with ⟨hd1, hd2⟩
      have h1 := hexVal_lt_16 c1 hd1
      have h2 := hexVal_lt_16 c2 hd2
      have hdiv : (hexVal c1 * 16 + hexVal c2) / 16 = hexVal c1 := by omega
      have hmod : (hexVal c1 * 16 + hexVal c2) % 16 = hexVal c2 := by omega
      simp only [hexlify, List.flatMap_cons, List.map_cons, List.cons_append,
        List.nil_append]
      rw [hdiv, hmod, hexChar_toLower c1 hd1, hexChar_toLower c2 hd2]
      have := ih bs' hrest
      simp only [hexlify] at this
      rw [this]
    · rw [if_neg hd] at h
      cases h

theorem unhexlify_ok (H : String) (bs : List Nat) (h : hexToBytes H.data = some bs) :
    unhexlify H = Except.ok bs := by
  unfold unhexlify
  rw [if_neg (by have := hexToBytes_even H.data bs h; omega), h]

theorem convert_script_ok (H : String) (bs : List Nat)
    (h : hexToBytes H.data = some bs) :
    convert_script H = DecodedScript.mk (String.mk (utf8DecodeIgnore bs))
      (String.mk (asciiOf bs)) (String.mk (hexlify bs)) := by
  unfold convert_script
  rw [unhexlify_ok H bs h]

theorem forall₂_map_self {α β : Type} (f : α → β) (l : List α) :
    List.Forall₂ (fun a b => b = f a) l (l.map f) := by
  induction l with
  | nil => exact List.Forall₂.nil
  | cons a t ih => exact List.Forall₂.cons rfl ih

/-! ### Claims about the decoder -/

/-- C3: for every well-formed hex string (even length, hex digit characters),
the hexView of the decoded script is the lowercase-normalized input: the
recovered bytes re-encode to the original hex modulo letter case. -/
theorem C3_hex_roundtrip (H : String) (heven : H.data.length % 2 = 0)
    (hhex : ∀ c ∈ H.data, isHexDigit c = true) :
    (convert_script H).hexView = pyLower H := by
  obtain ⟨bs, hbs⟩ := hexToBytes_complete H.data heven hhex
  rw [convert_script_ok H bs hbs]
  show String.mk (hexlify bs) = pyLower H
  unfold pyLower
  rw [hexToBytes_sound H.data bs hbs]

/-- C3 witness: decoding "AbC4" re-encodes to "abc4". -/
theorem C3_witness :
    ("AbC4" : String).data.length % 2 = 0 ∧
    (∀ c ∈ ("AbC4" : String).data, isHexDigit c = true) ∧
    (convert_script "AbC4").hexView = pyLower "AbC4" ∧
    pyLower "AbC4" = "abc4" :=
  ⟨by decide, by decide, C3_hex_roundtrip "AbC4" (by decide) (by decide), by decide⟩

/-- C4: on well-formed hex input, the asciiView has exactly one character per
decoded byte, each being the byte's own character when the byte is printable
ASCII (32 <= b < 127) and the literal placeholder '.' otherwise. -/
theorem C4_ascii_view (H : String) (bs : List Nat)
    (h : hexToBytes H.data = some bs) :
    (convert_script H).asciiView.length = bs.length ∧
    List.Forall₂ (fun b c => c = if 32 ≤ b ∧ b < 127 then Char.ofNat b else '.') bs
      (convert_script H).asciiView.data := by
  rw [convert_script_ok H bs h]
  constructor
  · show (String.mk (asciiOf bs)).length = bs.length
    simp [String.length, asciiOf]
  · exact forall₂_map_self _ bs

/-- C4 witness: "4142ff" decodes to bytes [65, 66, 255] and asciiView "AB.". -/
theorem C4_witness :
    hexToBytes ("4142ff" : String).data = some [65, 66, 255] ∧
    ((convert_script "4142ff").asciiView.length = ([65, 66, 255] : List Nat).length ∧
      List.Forall₂ (fun b c => c = if 32 ≤ b ∧ b < 127 then Char.ofNat b else '.')
        [65, 66, 255] (convert_script "4142ff").asciiView.data) ∧
    (convert_script "4142ff").asciiView = "AB." :=
  ⟨by decide, C4_ascii_view "4142ff" [65, 66, 255] (by decide), by decide⟩

/-- C5: on malformed hex (odd length or a non-hex character) the decoder does
not fail: it returns the sentinel record whose utf8View is "Error: " followed
by the diagnostic message, and whose asciiView and hexView are the literal
marker "Error". -/
theorem C5_malformed_no_raise (H : String)
    (h : H.data.length % 2 = 1 ∨ ¬ ∀ c ∈ H.data, isHexDigit c = true) :
    ∃ e, unhexlify H = Except.error e ∧
      convert_script H = DecodedScript.mk ("Error: " ++ e) "Error" "Error" := by
  have herr : ∃ e, unhexlify H = Except.error e := by
    by_cases hodd : H.data.length % 2 = 1
    · exact ⟨"Odd-length string", by unfold unhexlify; rw [if_pos hodd]⟩
    · have hbad : ¬ ∀ c ∈ H.data, isHexDigit c = true := h.resolve_left hodd
      have hnone : hexToBytes H.data = none := by
        cases hh : hexToBytes H.data with
        | none => rfl
        | some bs => exact absurd (hexToBytes_all_hex H.data bs hh) hbad
      exact ⟨"Non-hexadecimal digit found", by unfold unhexlify; rw [if_neg hodd, hnone]⟩
  obtain ⟨e, he⟩ := herr
  exact ⟨e, he, by unfold convert_script; rw [he]⟩

/-- C5 witness: the odd-length input "abc" and the non-hex input "zz" both
yield sentinel records. -/
theorem C5_witness :
    (("abc" : String).data.length % 2 = 1 ∨
      ¬ ∀ c ∈ ("abc" : String).data, isHexDigit c = true) ∧
    (∃ e, unhexlify "abc" = Except.error e ∧
      convert_script "abc" = DecodedScript.mk ("Error: " ++ e) "Error" "Error") ∧
    (("zz" : String).data.length % 2 = 1 ∨
      ¬ ∀ c ∈ ("zz" : String).data, isHexDigit c = true) ∧
    (∃ e, unhexlify "zz" = Except.error e ∧
      convert_script "zz" = DecodedScript.mk ("Error: " ++ e) "Error" "Error") :=
  ⟨by decide, C5_malformed_no_raise "abc" (by decide),
   by decide, C5_malformed_no_raise "zz" (by decide)⟩

/-- C10: the empty string decodes cleanly: all three views are empty and no
error sentinel is produced. -/
theorem C10_empty_input :
    convert_script "" = DecodedScript.mk "" "" "" ∧
    unhexlify "" = Except.ok [] := by
  constructor
  · decide
  · rfl

end MiningPool
